import Mathlib

/-
Verification development for the metaquest combat engine.

The embedding translates the engine in include/metaquest/game.h (state
machine, turn order, target resolution), the rules-simple doVictory
override, and the rules-simple heal/cost bindings.  The headers
character.h, party.h and object.h are not part of the sources at hand;
the leaf predicates and the attribute object they define are modelled
from the specification and are marked as such in their doc comments.
-/

set_option maxHeartbeats 1000000

namespace Metaquest

/-- Modelled from the spec: items are opaque to the engine; inventories and
equipment are ordered lists of item identifiers (appending preserves order
and duplicates are allowed). -/
abbrev Item := Nat

/-- Modelled from the spec (character.h is not among the sources): the data
of a character which the engine reads.  Attributes referenced by game.h are
HP/Current, HP/Total and Experience; equipment is the equipped item list;
the incapacitated flag stands for the unspecified extra condition in the
spec wording for able (alive and not otherwise incapacitated). -/
structure GChar where
  hpCurrent : Int
  hpTotal : Int
  experience : Int
  equipment : List Item
  incapacitated : Bool
deriving DecidableEq, Repr

/-- Modelled from the spec: alive means HP/Current > 0. -/
def GChar.alive (c : GChar) : Bool :=
  decide (0 < c.hpCurrent)

/-- Modelled from the spec: able means alive and not otherwise
incapacitated. -/
def GChar.able (c : GChar) : Bool :=
  c.alive && !c.incapacitated

/-- Modelled from the spec (party.h is not among the sources): a party is an
ordered sequence of characters plus a shared inventory. -/
structure Party where
  members : List GChar
  inventory : List Item
deriving DecidableEq, Repr

/-- The empty party, used as the out-of-range default for indexed party
lookup; the engine only indexes parties in range, so the default is inert. -/
def Party.empty : Party :=
  { members := [], inventory := [] }

/-- Modelled from the spec: a party is defeated iff every member is not
alive. -/
def Party.defeated (p : Party) : Bool :=
  p.members.all (fun c => !c.alive)

/-- The game object of game.h: the exit flag willExit and the party list.
The interaction surface, the RNG and the bound menu actions are external
collaborators and appear as parameters of the operations that use them. -/
structure Game where
  willExit : Bool
  parties : List Party
deriving DecidableEq, Repr

/-- The phase enumeration of game.h (enum state). -/
inductive GState
  | menu
  | combat
  | victory
  | defeat
  | exit
deriving DecidableEq, Repr

/-- The scanning loop of base::state (game.h lines 75 to 86): walk the
parties in index order; on the first defeated party return victory when
parties.size() - pi - 1 == 0, that is when the party is the last one
(no parties remain after it), and defeat otherwise; return combat when no
party is defeated. -/
def scanParties : List Party → GState
  | [] => GState.combat
  | p :: rest =>
    if p.defeated then
      (if rest.isEmpty then GState.victory else GState.defeat)
    else scanParties rest

/-- base::state (game.h lines 66 to 89): exit when willExit is set, menu
when exactly one party exists, otherwise the scan result.  The phase is a
pure function of the game value; nothing is stored. -/
def Game.state (g : Game) : GState :=
  if g.willExit then GState.exit
  else if g.parties.length = 1 then GState.menu
  else scanParties g.parties

theorem scanParties_combat (ps : List Party)
    (h : ∀ p ∈ ps, p.defeated = false) : scanParties ps = GState.combat := by
  induction ps with
  | nil => rfl
  | cons p rest ih =>
    have hp : p.defeated = false := h p (List.mem_cons_self p rest)
    simp [scanParties, hp]
    exact ih (fun q hq => h q (List.mem_cons_of_mem p hq))

theorem scanParties_first_defeated (ps : List Party) (i : Nat)
    (hi : i < ps.length)
    (hdef : (ps.get ⟨i, hi⟩).defeated = true)
    (hbefore : ∀ j, (hj : j < i) →
      (ps.get ⟨j, Nat.lt_trans hj hi⟩).defeated = false) :
    scanParties ps = (if i = ps.length - 1 then GState.victory
                      else GState.defeat) := by
  induction ps generalizing i with
  | nil => exact absurd hi (Nat.not_lt_zero i)
  | cons p rest ih =>
    cases i with
    | zero =>
      simp only [List.get] at hdef
      simp only [scanParties, hdef, if_true]
      cases rest with
      | nil => simp
      | cons q t => simp [List.isEmpty]
    | succ k =>
      have hp : p.defeated = false := hbefore 0 (Nat.succ_pos k)
      have hk : k < rest.length := Nat.lt_of_succ_lt_succ hi
      have hkd : (rest.get ⟨k, hk⟩).defeated = true := hdef
      have hkb : ∀ j, (hj : j < k) →
          (rest.get ⟨j, Nat.lt_trans hj hk⟩).defeated = false := by
        intro j hj
        exact hbefore (j + 1) (Nat.succ_lt_succ hj)
      have hrec := ih k hk hkd hkb
      have hiff : (k = rest.length - 1) ↔ (k + 1 = (p :: rest).length - 1) := by
        simp only [List.length_cons]
        omega
      simp only [scanParties, hp]
      simp only [Bool.false_eq_true, if_false]
      rw [hrec, if_congr hiff rfl rfl]

/-- C1: base::state returns exit when the exit flag is set; otherwise menu
when exactly one party exists (regardless of that party being defeated);
otherwise it scans the parties in index order and the first defeated party
decides the result: the last-indexed party yields victory, any other
defeated party yields defeat, and if no party is defeated the result is
combat.  The phase is a pure function of the game value, recomputed on
every call. -/
theorem state_characterization (g : Game) :
    (g.willExit = true → g.state = GState.exit) ∧
    (g.willExit = false → g.parties.length = 1 → g.state = GState.menu) ∧
    (g.willExit = false → g.parties.length ≠ 1 →
      ((∀ p ∈ g.parties, p.defeated = false) → g.state = GState.combat) ∧
      (∀ i, (hi : i < g.parties.length) →
        (g.parties.get ⟨i, hi⟩).defeated = true →
        (∀ j, (hj : j < i) →
          (g.parties.get ⟨j, Nat.lt_trans hj hi⟩).defeated = false) →
        g.state = (if i = g.parties.length - 1 then GState.victory
                   else GState.defeat))) := by
  refine ⟨?_, ?_, ?_⟩
  · intro h
    simp [Game.state, h]
  · intro h h1
    simp [Game.state, h, h1]
  · intro h h1
    constructor
    · intro hall
      simp only [Game.state, h, Bool.false_eq_true, if_false]
      rw [if_neg h1]
      exact scanParties_combat g.parties hall
    · intro i hi hdef hbefore
      simp only [Game.state, h, Bool.false_eq_true, if_false]
      rw [if_neg h1]
      exact scanParties_first_defeated g.parties i hi hdef hbefore

/-- A healthy sample character. -/
def charAlive : GChar :=
  { hpCurrent := 50, hpTotal := 50, experience := 0,
    equipment := [], incapacitated := false }

/-- A downed sample character. -/
def charDead : GChar :=
  { hpCurrent := 0, hpTotal := 50, experience := 7,
    equipment := [3], incapacitated := false }

/-- A two-party game: party 0 alive, party 1 defeated. -/
def gameVictorySample : Game :=
  { willExit := false,
    parties := [ { members := [charAlive], inventory := [1] },
                 { members := [charDead], inventory := [2] } ] }

theorem state_characterization_witness :
    gameVictorySample.state = GState.victory := by
  have hi1 : (1 : Nat) < gameVictorySample.parties.length := by decide
  have hd0 : (gameVictorySample.parties.get ⟨0, by decide⟩).defeated
      = false := by decide
  have hd1 : (gameVictorySample.parties.get ⟨1, by decide⟩).defeated
      = true := by decide
  have hb : ∀ j, (hj : j < 1) →
      (gameVictorySample.parties.get ⟨j, Nat.lt_trans hj hi1⟩).defeated
        = false := by
    intro j hj
    have hj0 : j = 0 := Nat.lt_one_iff.mp hj
    subst hj0
    exact hd0
  have h := ((state_characterization gameVictorySample).2.2
    (by decide) (by decide)).2 1 hi1 hd1 hb
  simpa using h

/-- The scope enumeration of the action descriptor (used by game.h; the
enumeration itself lives in character.h and is reproduced from the case
labels in game.h lines 298 to 325). -/
inductive Scope
  | self
  | ally
  | party
  | enemy
  | enemies
  | everyone
deriving DecidableEq, Repr

/-- The target filter enumeration of the action descriptor (case labels in
game.h lines 330 to 374). -/
inductive TargetFilter
  | none
  | onlyHealthy
  | onlyAlive
  | onlyUnhealthy
  | onlyDead
  | onlyUndefeated
deriving DecidableEq, Repr

/-- The members of party q, each tagged with the index q of the party that
owns it.  The tag models the back pointer from a character to its owning
party, which the party-level defeated predicate consults. -/
def Game.partyMembersTagged (g : Game) (q : Nat) : List (Nat × GChar) :=
  ((g.parties.getD q Party.empty).members).map (fun c => (q, c))

/-- The candidate-set computation of base::resolve (game.h lines 294 to
325): the actor c sits in party p; self pushes c alone, ally and party push
the members of party p, enemy and enemies push the members of every party
with index other than p in index order, everyone pushes the members of
every party. -/
def Game.candidates (g : Game) (p : Nat) (actor : GChar) :
    Scope → List (Nat × GChar)
  | Scope.self => [(p, actor)]
  | Scope.ally => g.partyMembersTagged p
  | Scope.party => g.partyMembersTagged p
  | Scope.enemy =>
    (((List.range g.parties.length).filter (fun q => q ≠ p)).flatMap
      g.partyMembersTagged)
  | Scope.enemies =>
    (((List.range g.parties.length).filter (fun q => q ≠ p)).flatMap
      g.partyMembersTagged)
  | Scope.everyone =>
    ((List.range g.parties.length).flatMap g.partyMembersTagged)

/-- The filter step of base::resolve (game.h lines 330 to 374).  The dead
and undefeated filters negate alive and the party-level defeated; the
party of a tagged candidate is looked up through its tag. -/
def Game.filterKeeps (g : Game) : TargetFilter → (Nat × GChar) → Bool
  | TargetFilter.none, _ => true
  | TargetFilter.onlyHealthy, pc => decide (pc.2.hpCurrent = pc.2.hpTotal)
  | TargetFilter.onlyAlive, pc => pc.2.alive
  | TargetFilter.onlyUnhealthy, pc =>
    pc.2.alive && decide (pc.2.hpCurrent < pc.2.hpTotal)
  | TargetFilter.onlyDead, pc => !pc.2.alive
  | TargetFilter.onlyUndefeated, pc =>
    !(g.parties.getD pc.1 Party.empty).defeated

/-- The result of target resolution: nothing models the empty maybe value
(NoEligibleTargets), all is the full filtered set returned for the
hit-everyone scopes, choose is the filtered set handed to the interactive
single-target chooser. -/
inductive Resolved
  | nothing
  | all (ts : List (Nat × GChar))
  | choose (ts : List (Nat × GChar))
deriving DecidableEq, Repr

/-- base::resolve target resolution (game.h lines 291 to 393): compute
candidates by scope, filter, fail with the empty maybe when the filtered
set is empty, then either return the whole filtered set (self, party,
enemies, everyone) or hand it to the interactive chooser (ally, enemy). -/
def Game.resolveTargets (g : Game) (p : Nat) (actor : GChar)
    (sc : Scope) (f : TargetFilter) : Resolved :=
  let filtered := (g.candidates p actor sc).filter (g.filterKeeps f)
  if filtered.isEmpty then Resolved.nothing
  else
    match sc with
    | Scope.self | Scope.party | Scope.enemies | Scope.everyone =>
      Resolved.all filtered
    | Scope.ally | Scope.enemy => Resolved.choose filtered

/-- Outcome of one iteration of the menu-resolution loop of base::resolve
(game.h lines 162 to 183): retry forces another round of the menu,
menuAction runs a bound menu handler, act commits an action against the
resolved targets. -/
inductive StepOutcome
  | retry
  | menuAction (s : String)
  | act (s : String) (ts : List (Nat × GChar))
deriving DecidableEq, Repr

/-- One iteration of the menu-resolution loop of base::resolve (game.h
lines 162 to 183): Cancel retries; a label bound in the menu action map
dispatches to its handler; otherwise targets are resolved for the label,
and an absent or empty target set forces a retry instead of invoking the
action.  The interactive chooser of the ally and enemy scopes is the
external collaborator interact.query, passed as a parameter. -/
def Game.resolveStep (g : Game) (p : Nat) (actor : GChar)
    (isMenuAction : String → Bool) (sc : Scope) (f : TargetFilter)
    (chooser : List (Nat × GChar) → Option (List (Nat × GChar)))
    (s : String) : StepOutcome :=
  if s = "Cancel" then StepOutcome.retry
  else if isMenuAction s then StepOutcome.menuAction s
  else
    match g.resolveTargets p actor sc f with
    | Resolved.nothing => StepOutcome.retry
    | Resolved.all ts =>
      if ts.length < 1 then StepOutcome.retry else StepOutcome.act s ts
    | Resolved.choose ts =>
      match chooser ts with
      | Option.none => StepOutcome.retry
      | Option.some chosen =>
        if chosen.length < 1 then StepOutcome.retry
        else StepOutcome.act s chosen

theorem mem_partyMembersTagged (g : Game) (q : Nat) (pc : Nat × GChar) :
    pc ∈ g.partyMembersTagged q ↔
      pc.1 = q ∧ pc.2 ∈ (g.parties.getD q Party.empty).members := by
  cases pc with
  | mk a c =>
    simp only [Game.partyMembersTagged, List.mem_map, Prod.mk.injEq]
    constructor
    · rintro ⟨x, hx, hq, hc⟩
      exact ⟨hq.symm, hc ▸ hx⟩
    · rintro ⟨hq, hc⟩
      exact ⟨c, hc, hq.symm, rfl⟩

theorem mem_candidates_other (g : Game) (p : Nat)
    (pc : Nat × GChar) :
    pc ∈ ((((List.range g.parties.length).filter (fun q => q ≠ p)).flatMap
        g.partyMembersTagged)) ↔
      pc.1 ≠ p ∧ pc.1 < g.parties.length ∧
        pc.2 ∈ (g.parties.getD pc.1 Party.empty).members := by
  simp only [List.mem_flatMap, List.mem_filter, List.mem_range,
    mem_partyMembersTagged, decide_eq_true_eq]
  constructor
  · rintro ⟨q, ⟨hq, hqp⟩, hpc, hm⟩
    subst hpc
    exact ⟨hqp, hq, hm⟩
  · rintro ⟨hqp, hq, hm⟩
    exact ⟨pc.1, ⟨hq, hqp⟩, rfl, hm⟩

/-- All characters of the match, tagged with their party index, in the
party-then-member order of the source iteration. -/
def Game.allTagged (g : Game) : List (Nat × GChar) :=
  (List.range g.parties.length).flatMap g.partyMembersTagged

theorem mem_allTagged (g : Game) (pc : Nat × GChar) :
    pc ∈ g.allTagged ↔
      pc.1 < g.parties.length ∧
        pc.2 ∈ (g.parties.getD pc.1 Party.empty).members := by
  simp only [Game.allTagged, List.mem_flatMap, List.mem_range,
    mem_partyMembersTagged]
  constructor
  · rintro ⟨q, hq, hpc, hm⟩
    subst hpc
    exact ⟨hq, hm⟩
  · rintro ⟨hq, hm⟩
    exact ⟨pc.1, hq, rfl, hm⟩

theorem resolveTargets_dispatch (g : Game) (p : Nat) (actor : GChar)
    (sc : Scope) (f : TargetFilter)
    (hne : (g.candidates p actor sc).filter (g.filterKeeps f) ≠ []) :
    g.resolveTargets p actor sc f =
      (match sc with
       | Scope.self | Scope.party | Scope.enemies | Scope.everyone =>
         Resolved.all ((g.candidates p actor sc).filter (g.filterKeeps f))
       | Scope.ally | Scope.enemy =>
         Resolved.choose
           ((g.candidates p actor sc).filter (g.filterKeeps f))) := by
  simp only [Game.resolveTargets, List.isEmpty_iff, hne, if_false]
  cases sc <;> rfl

/-- C2: the candidate set is computed exactly by scope (self: the actor
alone; ally and party: all members of the actor's own party; enemy and
enemies: all members of every party other than the actor's; everyone: all
characters of the match), and after filtering, the scopes self, party,
enemies and everyone return the whole filtered set while only ally and
enemy hand the filtered set to the interactive single-target chooser. -/
theorem candidates_and_dispatch_characterization (g : Game) (p : Nat)
    (actor : GChar) (f : TargetFilter) :
    (g.candidates p actor Scope.self = [(p, actor)]) ∧
    (g.candidates p actor Scope.ally = g.partyMembersTagged p ∧
     g.candidates p actor Scope.party = g.partyMembersTagged p ∧
     (∀ pc : Nat × GChar, pc ∈ g.partyMembersTagged p ↔
        pc.1 = p ∧ pc.2 ∈ (g.parties.getD p Party.empty).members)) ∧
    (∀ pc : Nat × GChar,
      (pc ∈ g.candidates p actor Scope.enemy ↔
        pc.1 ≠ p ∧ pc.1 < g.parties.length ∧
          pc.2 ∈ (g.parties.getD pc.1 Party.empty).members) ∧
      (pc ∈ g.candidates p actor Scope.enemies ↔
        pc.1 ≠ p ∧ pc.1 < g.parties.length ∧
          pc.2 ∈ (g.parties.getD pc.1 Party.empty).members)) ∧
    (∀ pc : Nat × GChar,
      pc ∈ g.candidates p actor Scope.everyone ↔
        pc.1 < g.parties.length ∧
          pc.2 ∈ (g.parties.getD pc.1 Party.empty).members) ∧
    (∀ sc, (g.candidates p actor sc).filter (g.filterKeeps f) ≠ [] →
      ((sc = Scope.self ∨ sc = Scope.party ∨ sc = Scope.enemies ∨
          sc = Scope.everyone) →
        g.resolveTargets p actor sc f =
          Resolved.all
            ((g.candidates p actor sc).filter (g.filterKeeps f))) ∧
      ((sc = Scope.ally ∨ sc = Scope.enemy) →
        g.resolveTargets p actor sc f =
          Resolved.choose
            ((g.candidates p actor sc).filter (g.filterKeeps f)))) := by
  refine ⟨rfl, ⟨rfl, rfl, fun pc => mem_partyMembersTagged g p pc⟩,
    ?_, ?_, ?_⟩
  · intro pc
    exact ⟨mem_candidates_other g p pc, mem_candidates_other g p pc⟩
  · intro pc
    exact mem_allTagged { willExit := g.willExit, parties := g.parties } pc
  · intro sc hne
    constructor
    · rintro (rfl | rfl | rfl | rfl) <;>
        simpa using resolveTargets_dispatch g p actor _ f hne
    · rintro (rfl | rfl) <;>
        simpa using resolveTargets_dispatch g p actor _ f hne

theorem candidates_and_dispatch_witness :
    gameVictorySample.resolveTargets 0 charAlive Scope.enemies
      TargetFilter.none = Resolved.all [(1, charDead)] := by
  have h := ((candidates_and_dispatch_characterization gameVictorySample 0
    charAlive TargetFilter.none).2.2.2.2 Scope.enemies (by decide)).1
    (by simp)
  rw [h]
  decide

theorem Party.defeated_iff (p : Party) :
    p.defeated = true ↔ ∀ c ∈ p.members, ¬ 0 < c.hpCurrent := by
  simp [Party.defeated, List.all_eq_true, GChar.alive]

/-- C3: the filter step keeps exactly the described individuals: none keeps
all candidates; onlyHealthy keeps those with HP/Current equal to HP/Total;
onlyAlive keeps those with alive() true (HP/Current > 0); onlyUnhealthy
keeps those alive with HP/Current < HP/Total; onlyDead keeps those with
alive() false; onlyUndefeated keeps those whose whole owning party is not
defeated, a party-level predicate (final conjunct: a party is defeated iff
every one of its members is not alive). -/
theorem filter_characterization (g : Game) (cand : List (Nat × GChar))
    (pc : Nat × GChar) :
    (pc ∈ cand.filter (g.filterKeeps TargetFilter.none) ↔ pc ∈ cand) ∧
    (pc ∈ cand.filter (g.filterKeeps TargetFilter.onlyHealthy) ↔
      pc ∈ cand ∧ pc.2.hpCurrent = pc.2.hpTotal) ∧
    (pc ∈ cand.filter (g.filterKeeps TargetFilter.onlyAlive) ↔
      pc ∈ cand ∧ 0 < pc.2.hpCurrent) ∧
    (pc ∈ cand.filter (g.filterKeeps TargetFilter.onlyUnhealthy) ↔
      pc ∈ cand ∧ 0 < pc.2.hpCurrent ∧ pc.2.hpCurrent < pc.2.hpTotal) ∧
    (pc ∈ cand.filter (g.filterKeeps TargetFilter.onlyDead) ↔
      pc ∈ cand ∧ ¬ 0 < pc.2.hpCurrent) ∧
    (pc ∈ cand.filter (g.filterKeeps TargetFilter.onlyUndefeated) ↔
      pc ∈ cand ∧
        ¬ (∀ c ∈ (g.parties.getD pc.1 Party.empty).members,
            ¬ 0 < c.hpCurrent)) ∧
    ((g.parties.getD pc.1 Party.empty).defeated = true ↔
      ∀ c ∈ (g.parties.getD pc.1 Party.empty).members,
        ¬ 0 < c.hpCurrent) := by
  refine ⟨?_, ?_, ?_, ?_, ?_, ?_,
    Party.defeated_iff (g.parties.getD pc.1 Party.empty)⟩
  · simp [List.mem_filter, Game.filterKeeps]
  · simp [List.mem_filter, Game.filterKeeps]
  · simp [List.mem_filter, Game.filterKeeps, GChar.alive]
  · simp [List.mem_filter, Game.filterKeeps, GChar.alive, and_assoc]
  · simp [List.mem_filter, Game.filterKeeps, GChar.alive]
  · rw [List.mem_filter]
    have hdf := Party.defeated_iff (g.parties.getD pc.1 Party.empty)
    constructor
    · rintro ⟨hm, hk⟩
      refine ⟨hm, fun hall => ?_⟩
      have hd := hdf.2 hall
      have hd2 : (g.parties[pc.1]?.getD Party.empty).defeated = true := by
        simpa [List.getD] using hd
      simp [Game.filterKeeps, hd2] at hk
    · rintro ⟨hm, hnd⟩
      refine ⟨hm, ?_⟩
      cases hb : (g.parties.getD pc.1 Party.empty).defeated with
      | false =>
        have hb2 : (g.parties[pc.1]?.getD Party.empty).defeated = false := by
          simpa [List.getD] using hb
        simp [Game.filterKeeps, hb2]
      | true => exact absurd (hdf.1 hb) hnd

theorem resolveTargets_empty (g : Game) (p : Nat) (actor : GChar)
    (sc : Scope) (f : TargetFilter)
    (h : (g.candidates p actor sc).filter (g.filterKeeps f) = []) :
    g.resolveTargets p actor sc f = Resolved.nothing := by
  simp only [Game.resolveTargets, h, List.isEmpty_nil, if_true]

/-- C4: when the filtered candidate set is empty, target resolution returns
the empty maybe value (NoEligibleTargets) before interactive selection, the
menu-resolution loop turns that into a forced retry instead of invoking the
action, and in particular with scope enemy, filter onlyUndefeated and the
single opposing party entirely defeated the result is empty. -/
theorem empty_targets_retry (g : Game) (p : Nat) (actor : GChar)
    (sc : Scope) (f : TargetFilter) (isMenuAction : String → Bool)
    (chooser : List (Nat × GChar) → Option (List (Nat × GChar)))
    (s : String) :
    ((g.candidates p actor sc).filter (g.filterKeeps f) = [] →
      g.resolveTargets p actor sc f = Resolved.nothing) ∧
    (s ≠ "Cancel" → isMenuAction s = false →
      g.resolveTargets p actor sc f = Resolved.nothing →
      g.resolveStep p actor isMenuAction sc f chooser s
        = StepOutcome.retry) ∧
    (g.parties.length = 2 →
      (g.parties.getD 1 Party.empty).defeated = true →
      g.resolveTargets 0 actor Scope.enemy TargetFilter.onlyUndefeated
        = Resolved.nothing) := by
  refine ⟨resolveTargets_empty g p actor sc f, ?_, ?_⟩
  · intro hs hm hr
    simp only [Game.resolveStep, hs, if_false, hm, Bool.false_eq_true, hr]
  · intro h2 hdef
    apply resolveTargets_empty
    apply List.filter_eq_nil_iff.2
    intro pc hpc
    have hmem := (mem_candidates_other g 0 pc).1 hpc
    have h1 : pc.1 = 1 := by omega
    simp only [Game.filterKeeps, h1, hdef, Bool.not_true,
      Bool.false_eq_true, not_false_eq_true]

theorem empty_targets_retry_witness :
    gameVictorySample.resolveStep 0 charAlive (fun _ => false) Scope.enemy
      TargetFilter.onlyUndefeated (fun _ => Option.none) "Attack"
      = StepOutcome.retry := by
  have h := empty_targets_retry gameVictorySample 0 charAlive Scope.enemy
    TargetFilter.onlyUndefeated (fun _ => false) (fun _ => Option.none)
    "Attack"
  exact h.2.1 (by decide) rfl (h.2.2 (by decide) (by decide))

/-- base::turnOrder (game.h lines 91 to 112): collect every character of
every party in party order, keep those with able() true, and shuffle.
std::random_shuffle draws from an external source of randomness, so the
shuffle is a parameter; the theorems assume only that it permutes its
input.  The order is recomputed on every call; nothing is stored. -/
def Game.turnOrder (g : Game)
    (shuffle : List (Nat × GChar) → List (Nat × GChar)) :
    List (Nat × GChar) :=
  shuffle (g.allTagged.filter (fun pc => pc.2.able))

/-- base::nextCharacter (game.h lines 114 to 116) dereferences element 0 of
a freshly computed turn order; the total embedding returns the optional
first element, none standing for the out-of-bounds access on an empty
order. -/
def Game.nextCharacter (g : Game)
    (shuffle : List (Nat × GChar) → List (Nat × GChar)) :
    Option (Nat × GChar) :=
  (g.turnOrder shuffle).head?

/-- C5: the turn order is a permutation of exactly the able characters
across all parties (membership characterized element by element), and
nextCharacter is the first element of that freshly shuffled sequence;
both are pure functions of the game value and the shuffle, recomputed on
every call with no persisted queue. -/
theorem turnOrder_characterization (g : Game)
    (shuffle : List (Nat × GChar) → List (Nat × GChar))
    (hs : ∀ l, List.Perm (shuffle l) l) :
    List.Perm (g.turnOrder shuffle)
      (g.allTagged.filter (fun pc => pc.2.able)) ∧
    (∀ pc : Nat × GChar, pc ∈ g.turnOrder shuffle ↔
      (pc.1 < g.parties.length ∧
        pc.2 ∈ (g.parties.getD pc.1 Party.empty).members) ∧
      pc.2.able = true) ∧
    g.nextCharacter shuffle = (g.turnOrder shuffle).head? := by
  refine ⟨hs _, ?_, rfl⟩
  intro pc
  rw [Game.turnOrder, (hs _).mem_iff, List.mem_filter, mem_allTagged]

theorem turnOrder_characterization_witness :
    gameVictorySample.turnOrder (fun l => l) = [(0, charAlive)] ∧
    gameVictorySample.nextCharacter (fun l => l)
      = Option.some (0, charAlive) := by
  have h := turnOrder_characterization gameVictorySample (fun l => l)
    (fun l => List.Perm.refl l)
  refine ⟨by decide, ?_⟩
  rw [h.2.2]
  decide

/-- C9: under the precondition that some character is able, nextCharacter
yields an able character of the match; when no character is able the turn
order is empty and the index-0 access of nextCharacter has no value, so
the engine must not call it in such a state. -/
theorem nextCharacter_safety (g : Game)
    (shuffle : List (Nat × GChar) → List (Nat × GChar))
    (hs : ∀ l, List.Perm (shuffle l) l) :
    ((∃ pc ∈ g.allTagged, pc.2.able = true) →
      ∃ pc, g.nextCharacter shuffle = Option.some pc ∧
        pc ∈ g.allTagged ∧ pc.2.able = true) ∧
    ((∀ pc ∈ g.allTagged, pc.2.able = false) →
      g.turnOrder shuffle = [] ∧ g.nextCharacter shuffle = Option.none) := by
  constructor
  · rintro ⟨pc, hmem, hable⟩
    have hf : pc ∈ g.allTagged.filter (fun q => q.2.able) :=
      List.mem_filter.2 ⟨hmem, hable⟩
    cases hl : g.turnOrder shuffle with
    | nil =>
      have hsh := (hs (g.allTagged.filter (fun q => q.2.able))).mem_iff.2 hf
      rw [Game.turnOrder] at hl
      rw [hl] at hsh
      exact absurd hsh (List.not_mem_nil pc)
    | cons a t =>
      refine ⟨a, ?_, ?_, ?_⟩
      · rw [Game.nextCharacter, hl]
        rfl
      · have ha : a ∈ g.turnOrder shuffle := by
          rw [hl]
          exact List.mem_cons_self a t
        have := ((hs _).mem_iff).1 ha
        exact (List.mem_filter.1 this).1
      · have ha : a ∈ g.turnOrder shuffle := by
          rw [hl]
          exact List.mem_cons_self a t
        have := ((hs _).mem_iff).1 ha
        exact (List.mem_filter.1 this).2
  · intro hnone
    have hf : g.allTagged.filter (fun q => q.2.able) = [] := by
      apply List.filter_eq_nil_iff.2
      intro pc hpc
      simp [hnone pc hpc]
    have hnil : g.turnOrder shuffle = [] := by
      have hperm := hs (g.allTagged.filter (fun q => q.2.able))
      rw [hf] at hperm
      rw [Game.turnOrder, hf]
      exact List.Perm.eq_nil hperm
    exact ⟨hnil, by rw [Game.nextCharacter, hnil]; rfl⟩

/-- A one-party game in which nobody is able. -/
def gameAllDown : Game :=
  { willExit := false,
    parties := [ { members := [charDead], inventory := [] } ] }

theorem nextCharacter_safety_witness :
    (∃ pc, gameVictorySample.nextCharacter (fun l => l) = Option.some pc ∧
      pc ∈ gameVictorySample.allTagged ∧ pc.2.able = true) ∧
    gameAllDown.nextCharacter (fun l => l) = Option.none := by
  constructor
  · exact (nextCharacter_safety gameVictorySample (fun l => l)
      (fun l => List.Perm.refl l)).1 ⟨(0, charAlive), by decide, by decide⟩
  · exact ((nextCharacter_safety gameAllDown (fun l => l)
      (fun l => List.Perm.refl l)).2 (by decide)).2

/-- The Quit/Yes handler base::quit (game.h lines 206 to 210): sets the
willExit flag; the retry flag and the message concern only the caller. -/
def Game.quit (g : Game) : Game :=
  { g with willExit := true }

/-- base::doVictory (game.h lines 134 to 138): erase the party at index 1;
interact.clear() touches only the external surface. -/
def Game.doVictory (g : Game) : Game :=
  { g with parties := g.parties.eraseIdx 1 }

/-- base::generateParties (game.h lines 395 to 406): append externally
generated parties until the configured count is reached; the generated
parties are a parameter because generation is randomized and delegated to
the rule set. -/
def Game.generateParties (g : Game) (newParties : List Party) : Game :=
  { g with parties := g.parties ++ newParties }

/-- C10: the exit state is absorbing: the willExit check precedes every
other check of state(), quit sets the flag, and no operation of the game
object resets it: the party-mutating operations leave willExit unchanged,
so once set, every later call of state() returns exit regardless of the
parties. -/
theorem exit_absorbing (g : Game) (newParties : List Party) :
    (g.willExit = true → g.state = GState.exit) ∧
    (g.quit).willExit = true ∧
    (g.quit).state = GState.exit ∧
    (g.doVictory).willExit = g.willExit ∧
    (g.generateParties newParties).willExit = g.willExit ∧
    (∀ ps : List Party,
      Game.state { willExit := true, parties := ps } = GState.exit) := by
  refine ⟨?_, rfl, ?_, rfl, rfl, ?_⟩
  · intro h
    simp [Game.state, h]
  · simp [Game.quit, Game.state]
  · intro ps
    simp [Game.state]

theorem exit_absorbing_witness :
    (gameVictorySample.quit).state = GState.exit :=
  (exit_absorbing gameVictorySample.quit []).1
    (exit_absorbing gameVictorySample []).2.1

/-- rules::simple::game::doVictory: when more than one party exists, append
the inventory of party 1 to the inventory of party 0, then append the
equipment of every member of party 1 in member order while summing their
Experience; divide the sum by the size of party 0 (C++ long division
truncates toward zero, hence Int.tdiv), bump a zero quotient to 1, add the
reward to the Experience of every member of party 0 (the uncapped add of
the attribute object is a plain increment of the stored value), and finish
with base::doVictory, which removes party 1. -/
def Simple.doVictory (g : Game) : Game :=
  if 1 < g.parties.length then
    let p := g.parties.getD 0 Party.empty
    let d := g.parties.getD 1 Party.empty
    let inv := p.inventory ++ d.inventory ++
      d.members.flatMap (fun c => c.equipment)
    let xpSum := (d.members.map (fun c => c.experience)).sum
    let xpDiv := Int.tdiv xpSum (Int.ofNat p.members.length)
    let xp := if xpDiv = 0 then 1 else xpDiv
    let p2 : Party :=
      { members := p.members.map
          (fun c => { c with experience := c.experience + xp }),
        inventory := inv }
    Game.doVictory { g with parties := g.parties.set 0 p2 }
  else Game.doVictory g

theorem tdiv_nonneg_of_nonneg (a : Int) (k : Nat) (ha : 0 ≤ a) :
    0 ≤ Int.tdiv a (Int.ofNat k) := by
  obtain ⟨s, rfl⟩ := Int.eq_ofNat_of_zero_le ha
  exact Int.ofNat_nonneg (s / k)

/-- C6: in the two-party victory state, doVictory appends the inventory of
the defeated party 1 and then the equipment of each of its (all defeated)
members to the inventory of party 0, raises the Experience of every member
of party 0 by the sum of the defeated Experience divided by the size of
party 0 with a minimum of 1, removes the defeated party, and leaves the
exit flag alone.  In the two-party single-member scenario the reward is
max 1 of the Experience of the defeated character. -/
theorem doVictory_victory_characterization (g : Game)
    (h2 : g.parties.length = 2)
    (hv : g.state = GState.victory)
    (hm : 0 < (g.parties.getD 0 Party.empty).members.length)
    (hx : 0 ≤ ((g.parties.getD 1 Party.empty).members.map
      (fun c => c.experience)).sum) :
    (g.parties.getD 1 Party.empty).defeated = true ∧
    (Simple.doVictory g).willExit = g.willExit ∧
    (Simple.doVictory g).parties =
      [ { members :=
            (g.parties.getD 0 Party.empty).members.map
              (fun c =>
                { c with
                  experience :=
                    c.experience +
                      max 1 (Int.tdiv
                        (((g.parties.getD 1 Party.empty).members.map
                          (fun e => e.experience)).sum)
                        (Int.ofNat
                          (g.parties.getD 0
                            Party.empty).members.length)) }),
          inventory :=
            (g.parties.getD 0 Party.empty).inventory ++
              (g.parties.getD 1 Party.empty).inventory ++
              (g.parties.getD 1 Party.empty).members.flatMap
                (fun c => c.equipment) } ] := by
  obtain ⟨a, b, hab⟩ := List.length_eq_two.mp h2
  have hxw : g.willExit = false := by
    by_contra hw
    have hw2 : g.willExit = true := by
      cases hwe : g.willExit
      · exact absurd hwe hw
      · rfl
    simp [Game.state, hw2] at hv
  have hbdef : b.defeated = true := by
    rw [Game.state, hxw] at hv
    simp only [Bool.false_eq_true, if_false] at hv
    rw [hab] at hv
    simp only [List.length_cons, List.length_nil] at hv
    norm_num at hv
    cases had : a.defeated with
    | true =>
      simp [scanParties, had, List.isEmpty] at hv
    | false =>
      cases hbd : b.defeated with
      | true => rfl
      | false => simp [scanParties, had, hbd] at hv
  have hmax : ∀ S : Int, 0 ≤ S → ∀ k : Nat, 0 < k →
      ((if Int.tdiv S (Int.ofNat k) = 0 then 1
        else Int.tdiv S (Int.ofNat k)) = max 1 (Int.tdiv S (Int.ofNat k)))
      := by
    intro S hS k hk
    have hq := tdiv_nonneg_of_nonneg S k hS
    by_cases h0 : Int.tdiv S (Int.ofNat k) = 0
    · rw [if_pos h0, h0]
      rfl
    · rw [if_neg h0]
      have h1 : 1 ≤ Int.tdiv S (Int.ofNat k) := by omega
      exact (max_eq_right h1).symm
  refine ⟨by rw [hab]; exact hbdef, ?_, ?_⟩
  · rw [Simple.doVictory]
    rw [if_pos (by rw [h2]; norm_num)]
    rfl
  · rw [Simple.doVictory]
    rw [if_pos (by rw [h2]; norm_num)]
    simp only [Game.doVictory]
    rw [hab]
    simp only [List.getD, List.set]
    rw [hmax _ (by rw [hab] at hx; simpa using hx) _
      (by rw [hab] at hm; simpa using hm)]
    rfl

/-- The expected surviving character of the victory scenario: charAlive
with the Experience reward added. -/
def charAliveRewarded : GChar :=
  { hpCurrent := 50, hpTotal := 50, experience := 7,
    equipment := [], incapacitated := false }

theorem doVictory_victory_witness :
    (Simple.doVictory gameVictorySample).parties =
      [ { members := [charAliveRewarded], inventory := [1, 2, 3] } ] := by
  have h := doVictory_victory_characterization gameVictorySample
    (by decide) (by decide) (by decide) (by decide)
  rw [h.2.2]
  decide

/-- Modelled from the spec (object.h is not among the sources): lookup in
the stored-attribute association list, returning the type default 0 for an
absent key. -/
def lookupStored (l : List (String × Int)) (k : String) : Int :=
  match l.find? (fun q => q.1 == k) with
  | Option.some q => q.2
  | Option.none => 0

/-- Modelled from the spec: write a stored attribute, overwriting the first
binding of the key or appending a fresh one. -/
def setStored : List (String × Int) → String → Int → List (String × Int)
  | [], k, v => [(k, v)]
  | q :: t, k, v => if q.1 == k then (k, v) :: t else q :: setStored t k v

/-- Modelled from the spec (object.h is not among the sources): an
attribute object holds stored attributes and function attributes; a
function attribute is evaluated on every read over the current stored
attributes and shadows the stored value of its key. -/
structure Obj where
  stored : List (String × Int)
  funcs : List (String × (List (String × Int) → Int))

/-- Modelled from the spec: get(key) returns the function-attribute
evaluation if one is registered, else the stored value, else the default;
it never fails for unknown keys. -/
def Obj.get (o : Obj) (k : String) : Int :=
  match o.funcs.find? (fun q => q.1 == k) with
  | Option.some q => q.2 o.stored
  | Option.none => lookupStored o.stored k

/-- Modelled from the spec: add(key, delta) increments the stored value,
creating it at the default when absent. -/
def Obj.add (o : Obj) (k : String) (delta : Int) : Obj :=
  { o with
    stored := setStored o.stored k (lookupStored o.stored k + delta) }

/-- The clamp of the spec wording for the capped add, with the argument
order of std::clamp (value, low, high). -/
def clampInt (v lo hi : Int) : Int :=
  if v < lo then lo else if hi < v then hi else v

/-- Modelled from the spec: add(key, capKey, delta) stores
clamp(stored[key] + delta, 0, get(capKey)); used at the capped heal call
t.add of HP/Current against HP/Total. -/
def Obj.addCapped (o : Obj) (k capKey : String) (delta : Int) : Obj :=
  { o with
    stored :=
      setStored o.stored k
        (clampInt (lookupStored o.stored k + delta) 0 (o.get capKey)) }

theorem lookup_setStored_self (l : List (String × Int)) (k : String)
    (v : Int) : lookupStored (setStored l k v) k = v := by
  induction l with
  | nil => simp [setStored, lookupStored, List.find?]
  | cons q t ih =>
    by_cases h : q.1 = k
    · simp [setStored, h, lookupStored, List.find?]
    · rw [setStored, if_neg (by simpa using h)]
      rw [lookupStored, List.find?]
      have hq : (q.1 == k) = false := by simpa using h
      rw [hq]
      exact ih

theorem lookup_setStored_other (l : List (String × Int)) (k k2 : String)
    (v : Int) (h : k2 ≠ k) :
    lookupStored (setStored l k v) k2 = lookupStored l k2 := by
  have hke : (k == k2) = false := by
    cases hbe : (k == k2) with
    | false => rfl
    | true => exact absurd (eq_of_beq hbe).symm h
  induction l with
  | nil => simp [setStored, lookupStored, List.find?, hke]
  | cons q t ih =>
    by_cases hq : q.1 = k
    · rw [setStored, if_pos (by simpa using hq)]
      rw [lookupStored, List.find?, hke]
      rw [lookupStored, List.find?]
      have : (q.1 == k2) = false := by
        subst hq
        exact hke
      rw [this]
    · rw [setStored, if_neg (by simpa using hq)]
      rw [lookupStored, List.find?]
      rw [lookupStored, List.find?]
      cases hq2 : (q.1 == k2) with
      | true => rfl
      | false => exact ih

theorem clampInt_le_high (v hi : Int) (h : 0 ≤ hi) :
    clampInt v 0 hi ≤ hi := by
  rw [clampInt]
  split_ifs <;> omega

/-- An attribute object with a function attribute bound on the key of a
capped add: the read of the key evaluates the function attribute, not the
freshly clamped stored value. -/
def objFunKey : Obj :=
  { stored := [("HP/Total", 5)],
    funcs := [("HP/Current", fun _ => 100)] }

/-- C8 counterexample: the universally quantified claim fails.  After a
capped add of delta 1 > 0 on the key HP/Current of objFunKey, get of the
key returns the function-attribute value 100, which exceeds get of the cap
key HP/Total, 5: the clamp only constrains the stored value, and a
function attribute on the key shadows it. -/
theorem addCapped_unbounded_counterexample :
    0 < (1 : Int) ∧
    ¬ ((objFunKey.addCapped "HP/Current" "HP/Total" 1).get "HP/Current"
        ≤ (objFunKey.addCapped "HP/Current" "HP/Total" 1).get "HP/Total")
    := by
  exact ⟨by decide, by decide⟩

/-- C8 (amended): the capped add stores clamp(stored[key] + delta, 0,
get(capKey)) unconditionally; and when the key carries no function
attribute (else the read shadows the clamped stored value, see the
counterexample), the cap read at the call is not negative, and the write
leaves get(capKey) unchanged, then get(key) never exceeds get(capKey)
after the capped add.  The last two conditions hold at the heal call
site: HP/Total is a function attribute computed from Level, so it is not
affected by the write to HP/Current and is not negative there. -/
theorem addCapped_characterization (o : Obj) (k capKey : String)
    (delta : Int)
    (hk : o.funcs.find? (fun q => q.1 == k) = Option.none)
    (hnn : 0 ≤ o.get capKey)
    (hstable : (o.addCapped k capKey delta).get capKey = o.get capKey)
    (_hd : 0 < delta) :
    (o.addCapped k capKey delta).stored =
      setStored o.stored k
        (clampInt (lookupStored o.stored k + delta) 0 (o.get capKey)) ∧
    (o.addCapped k capKey delta).get k
      ≤ (o.addCapped k capKey delta).get capKey := by
  refine ⟨rfl, ?_⟩
  have hfuncs : (o.addCapped k capKey delta).funcs = o.funcs := rfl
  have hgk : (o.addCapped k capKey delta).get k
      = clampInt (lookupStored o.stored k + delta) 0 (o.get capKey) := by
    rw [Obj.get, hfuncs, hk]
    exact lookup_setStored_self o.stored k _
  rw [hgk, hstable]
  exact clampInt_le_high _ _ hnn

/-- rules::simple::getPoints: level * 10 + (level % 2) * 5, with the
truncated remainder of C++ long. -/
def getPoints (level : Int) : Int :=
  level * 10 + (Int.tmod level 2) * 5

/-- rules::simple::getHPTotal as a function attribute over the stored
attributes: getPoints(Level + 1); it reads Level, not HP/Current. -/
def getHPTotalF : List (String × Int) → Int :=
  fun st => getPoints (lookupStored st "Level" + 1)

/-- The heal call-site shape of rules-simple: HP/Current is a stored
attribute, HP/Total a function attribute bound to getHPTotal. -/
def objHealSite : Obj :=
  { stored := [("HP/Current", 3), ("Level", 1)],
    funcs := [("HP/Total", getHPTotalF)] }

theorem addCapped_characterization_witness :
    (objHealSite.addCapped "HP/Current" "HP/Total" 50).get "HP/Current"
      ≤ (objHealSite.addCapped "HP/Current" "HP/Total" 50).get "HP/Total"
    :=
  (addCapped_characterization objHealSite "HP/Current" "HP/Total" 50
    rfl (by decide) (by decide) (by decide)).2

/-- Modelled from the spec: a resource cost is an amount that must be
available in the named attribute before the action may execute. -/
structure Cost where
  amount : Int
  resource : String

/-- Modelled from the spec: every cost's attribute must be at least the
amount for the action to be affordable. -/
def affordable (o : Obj) (costs : List Cost) : Bool :=
  costs.all (fun c => decide (c.amount ≤ o.get c.resource))

/-- Modelled from the spec: deduct each cost from its attribute in order. -/
def deductCosts (o : Obj) : List Cost → Obj
  | [] => o
  | c :: t => deductCosts (o.add c.resource (-c.amount)) t

/-- Outcome of invoking a bound action: either the InsufficientResource
signal or the description returned by the effect function. -/
inductive InvokeOutcome
  | insufficientResource
  | done (desc : String)

/-- Modelled from the spec (character.h is not among the sources):
invoke(name, targets) checks affordability of every resource cost of the
bound action; on failure it signals InsufficientResource and leaves the
acting character and every target untouched; on success it deducts the
costs and runs the effect function on the deducted actor and the targets,
returning its description. -/
def invoke (o : Obj) (costs : List Cost)
    (effect : Obj → List Obj → (Obj × List Obj) × String)
    (targets : List Obj) : (Obj × List Obj) × InvokeOutcome :=
  if affordable o costs then
    ((effect (deductCosts o costs) targets).1,
      InvokeOutcome.done (effect (deductCosts o costs) targets).2)
  else ((o, targets), InvokeOutcome.insufficientResource)

/-- C7: invoke checks that every resource cost is affordable (the value of
each cost's attribute is at least the amount); if any cost is not
affordable it signals InsufficientResource and performs no mutation on any
character (the actor and the targets come back unchanged and the effect is
never applied); if all costs are affordable it deducts the costs and then
invokes the effect function. -/
theorem invoke_characterization (o : Obj) (costs : List Cost)
    (effect : Obj → List Obj → (Obj × List Obj) × String)
    (targets : List Obj) :
    (affordable o costs = true ↔
      ∀ c ∈ costs, c.amount ≤ o.get c.resource) ∧
    (affordable o costs = false →
      invoke o costs effect targets
        = ((o, targets), InvokeOutcome.insufficientResource)) ∧
    (affordable o costs = true →
      invoke o costs effect targets
        = ((effect (deductCosts o costs) targets).1,
            InvokeOutcome.done (effect (deductCosts o costs) targets).2))
    := by
  refine ⟨?_, ?_, ?_⟩
  · simp [affordable, List.all_eq_true]
  · intro h
    simp [invoke, h]
  · intro h
    simp [invoke, h]

/-- An attribute object that cannot pay the 2 MP heal cost. -/
def objPoor : Obj :=
  { stored := [("MP", 1)], funcs := [] }

/-- The 2 MP cost of Skill/Heal in rules-simple. -/
def costHeal : Cost :=
  { amount := 2, resource := "MP" }

theorem invoke_characterization_witness :
    invoke objPoor [costHeal] (fun s t => ((s, t), "healed")) []
      = ((objPoor, []), InvokeOutcome.insufficientResource) :=
  (invoke_characterization objPoor [costHeal]
    (fun s t => ((s, t), "healed")) []).2.1 (by decide)

end Metaquest
